import Mathlib

/-!
# Verification of the `errbag` multi-error collector

A shallow embedding of the Go package `errbag` (file `errbag.go`, the revision
with `Defer`/`Return`/`Merge`/`stash`).  The package implements `ErrorBag`, a
mutable collector of error values with identity-aware insertion: inserting a
value that is itself an `ErrorBag` (reached through the structural `errBagger`
capability, possibly through embedding) merges its contents instead of storing
it, and inserting the receiver itself is a no-op.

Modelling choices:
* Go error values are `ErrVal`: either an opaque leaf error carrying its
  rendered text, or a reference to an `ErrorBag` on the heap, reached through
  `depth` layers of struct embedding (the Go `errBagger` interface collapses
  any embedding depth to the underlying `*ErrorBag`, which `AsErrorBag`
  mirrors by ignoring `depth`).
* The mutable store is `Heap`: a map from bag identities (`Nat`) to bag
  contents plus an allocation counter; Go pointer identity is id equality.
* `ErrorFunc` callbacks (`func() error`) are pure here, so a callback is
  modelled by the `Option ErrVal` it returns (`none` = the callback returns
  nil); an `ErrorWrapper` is modelled by its `WrapError` function
  `ErrVal → Option ErrVal`.
* The mutual recursion `add`/`Merge` of the Go source is not structurally
  terminating (the heap may in principle contain reference cycles), so the
  embedding takes an explicit `fuel` argument; fuel `0` leaves the heap
  unchanged.  All theorems below either hold for every fuel or state the
  fuel they need.
* `stash`'s `default` branch panics in Go on a value that is neither an
  error nor an `ErrorFunc`; no claim exercises it, so `Item` only has the
  legal shapes (including nil interface values and nil `ErrorFunc`s, which
  `stash` skips).
-/

namespace Errbag

/-- A Go error value: an opaque leaf error (identified by its rendered text)
or a value that reduces, through `depth` layers of struct embedding, to the
`ErrorBag` with identity `id`. -/
inductive ErrVal where
  | leaf (msg : String)
  | bagRef (depth : Nat) (id : Nat)
deriving DecidableEq, Repr

/-- `AsErrorBag` (errbag.go): reduce an error to its base `*ErrorBag` via the
`errBagger` capability, or `nil` (`none`).  Embedding depth is collapsed,
exactly as promoted `errBag()` methods collapse it in Go. -/
def AsErrorBag : ErrVal → Option Nat
  | .leaf _ => none
  | .bagRef _ id => some id

/-- The `ErrorBag` struct: stored errors, optional `ErrorWrapper` (modelled by
its `WrapError` function) and the list of deferred `ErrorFunc`s (each modelled
by its pure result). -/
structure ErrorBag where
  errs : List ErrVal
  wrapper : Option (ErrVal → Option ErrVal)
  defers : List (Option ErrVal)

/-- `new(ErrorBag)`: the zero value. -/
def emptyBag : ErrorBag := ⟨[], none, []⟩

/-- The mutable store: bag contents per identity, plus an allocation counter. -/
structure Heap where
  bags : Nat → ErrorBag
  next : Nat

def getBag (s : Heap) (i : Nat) : ErrorBag := s.bags i

def setBag (s : Heap) (i : Nat) (b : ErrorBag) : Heap :=
  { s with bags := fun j => if j = i then b else s.bags j }

/-- `new(ErrorBag)` on the heap: a fresh identity holding the zero value. -/
def alloc (s : Heap) : Heap × Nat :=
  (⟨fun j => if j = s.next then emptyBag else s.bags j, s.next + 1⟩, s.next)

/-- `eb.errs = append(eb.errs, err)`. -/
def pushErr (s : Heap) (i : Nat) (e : ErrVal) : Heap :=
  setBag s i { getBag s i with errs := (getBag s i).errs ++ [e] }

/-- `(*ErrorBag).add` for a non-nil error: if the value reduces to an
`ErrorBag` it is merged (`eb.Merge(oeb)` — `add` folded over a snapshot of
the other bag's errors), never stored; the receiver itself is skipped;
otherwise the value is appended.  The Go recursion between `add` and `Merge`
is not structurally terminating (the heap could hold reference cycles), so
the embedding spends one unit of fuel per merge step. -/
def add : Nat → Heap → Nat → ErrVal → Heap
  | 0, s, _, _ => s
  | Nat.succ f, s, ebId, e =>
    match AsErrorBag e with
    | some oid =>
      if ebId = oid then s
      else ((getBag s oid).errs).foldl (fun h x => add f h ebId x) s
    | none => pushErr s ebId e

/-- The loop of `Merge`: `for _, err := range oeb.errs { eb.add(err) }` over
a snapshot `L` of the other bag's errors. -/
def addList (f : Nat) (s : Heap) (ebId : Nat) (L : List ErrVal) : Heap :=
  L.foldl (fun h x => add f h ebId x) s

theorem add_succ_bag (f : Nat) (s : Heap) (ebId d oid : Nat) :
    add (f + 1) s ebId (.bagRef d oid) =
      if ebId = oid then s else addList f s ebId ((getBag s oid).errs) := rfl

theorem add_succ_leaf (f : Nat) (s : Heap) (ebId : Nat) (m : String) :
    add (f + 1) s ebId (.leaf m) = pushErr s ebId (.leaf m) := rfl

theorem add_succ_of_leaf (f : Nat) (s : Heap) (ebId : Nat) {e : ErrVal}
    (h : AsErrorBag e = none) : add (f + 1) s ebId e = pushErr s ebId e := by
  cases e with
  | leaf m => rfl
  | bagRef d id => simp [AsErrorBag] at h

/-- `(*ErrorBag).Merge`: skip a nil argument and the receiver itself,
otherwise `add` each of the other bag's errors in order. -/
def Merge (f : Nat) (s : Heap) (ebId : Nat) (oeb : Option Nat) : Heap :=
  match oeb with
  | none => s
  | some oid => if ebId = oid then s else addList f s ebId ((getBag s oid).errs)

/-- `add` applied to a possibly-nil error (`eb.add(v())`): nil adds nothing. -/
def addOpt (f : Nat) (s : Heap) (ebId : Nat) : Option ErrVal → Heap
  | none => s
  | some e => add f s ebId e

/-- One element of `stash`'s variadic `items`: an error value, a nil
interface, an `ErrorFunc` (modelled by its result), or a nil `ErrorFunc`.
(The remaining Go case panics and is exercised by no claim.) -/
inductive Item where
  | err (e : ErrVal)
  | nilItem
  | fn (r : Option ErrVal)
  | nilFn

/-- `(*ErrorBag).stash`: errors are `add`ed, `ErrorFunc`s are invoked
immediately and their non-nil results `add`ed, nil items and nil funcs are
skipped. -/
def stash (f : Nat) (s : Heap) (ebId : Nat) : List Item → Heap
  | [] => s
  | it :: rest =>
    stash f
      (match it with
       | .err e => add f s ebId e
       | .nilItem => s
       | .fn r => addOpt f s ebId r
       | .nilFn => s)
      ebId rest

/-- `(*ErrorBag).ErrorOrNil` on a possibly-nil receiver: `nil` when the
receiver is nil or holds no errors, the receiver itself otherwise. -/
def ErrorOrNil (s : Heap) : Option Nat → Option Nat
  | none => none
  | some i => if (getBag s i).errs.isEmpty then none else some i

/-- `(*ErrorBag).Size`. -/
def Size (s : Heap) (i : Nat) : Nat := (getBag s i).errs.length

/-- `(*ErrorBag).Errors`: the stored slice itself (a view, not a copy). -/
def Errors (s : Heap) (i : Nat) : List ErrVal := (getBag s i).errs

/-- `New(err, others...)`: nil yields nil without touching the extras; an
error that is already a bag is reused; otherwise a fresh bag is allocated and
seeded; then the extras are stashed. -/
def New (f : Nat) (s : Heap) (err : Option ErrVal) (others : List Item) :
    Heap × Option Nat :=
  match err with
  | none => (s, none)
  | some e =>
    match AsErrorBag e with
    | some oid => (stash f s oid others, some oid)
    | none =>
      let an := alloc s
      (stash f (add f an.1 an.2 e) an.2 others, some an.2)

/-- `(*ErrorBag).Add(err, errors...)` on a possibly-nil receiver: nil `err`
returns `eb.ErrorOrNil()` at once (extras untouched); otherwise a nil
receiver is replaced by a fresh bag, `err` is `add`ed, the extras are
stashed, and `ErrorOrNil` of the result is returned. -/
def Add (f : Nat) (s : Heap) (eb : Option Nat) (err : Option ErrVal)
    (extras : List Item) : Heap × Option Nat :=
  match err with
  | none => (s, ErrorOrNil s eb)
  | some e =>
    let si : Heap × Nat :=
      match eb with
      | none => alloc s
      | some i => (s, i)
    let s2 := stash f (add f si.1 si.2 e) si.2 extras
    (s2, ErrorOrNil s2 (some si.2))

/-- `(*ErrorBag).Defer`: append the callback to the pending list. -/
def Defer (s : Heap) (ebId : Nat) (ef : Option ErrVal) : Heap :=
  setBag s ebId { getBag s ebId with defers := (getBag s ebId).defers ++ [ef] }

/-- `(*ErrorBag).Return(errors...)`: stash the extras, then run every
deferred callback in registration order, appending each non-nil result to the
stored errors, and return `ErrorOrNil`.  The pending list is not cleared. -/
def Return (f : Nat) (s : Heap) (ebId : Nat) (extras : List Item) :
    Heap × Option Nat :=
  let s1 := stash f s ebId extras
  let s2 := setBag s1 ebId
    { getBag s1 ebId with
      errs := (getBag s1 ebId).errs ++ (getBag s1 ebId).defers.filterMap id }
  (s2, ErrorOrNil s2 (some ebId))

/-- The rendered text of an error value (`err.Error()` in Go): a leaf renders
its own text; a bag reference renders via `(*ErrorBag).Error` (the body of
that method is inlined here; `Error` below unfolds to it), with fuel for the
mutual recursion through the heap. -/
def render : Nat → Heap → ErrVal → String
  | _, _, .leaf m => m
  | 0, _, .bagRef _ _ => ""
  | Nat.succ f, s, .bagRef _ id =>
    if (getBag s id).errs.length = 1 then
      render f s ((getBag s id).errs.headD (.leaf ""))
    else if 1 < (getBag s id).errs.length then
      "encountered " ++ toString (getBag s id).errs.length ++ " errors"
    else ""

/-- `(*ErrorBag).Error`: one stored error renders verbatim, more than one
renders the fixed summary, none renders the empty string. -/
def Error (f : Nat) (s : Heap) (ebId : Nat) : String :=
  if (getBag s ebId).errs.length = 1 then
    render f s ((getBag s ebId).errs.headD (.leaf ""))
  else if 1 < (getBag s ebId).errs.length then
    "encountered " ++ toString (getBag s ebId).errs.length ++ " errors"
  else ""

theorem render_bagRef (f : Nat) (s : Heap) (d id : Nat) :
    render (f + 1) s (.bagRef d id) = Error f s id := rfl

/-- The order underlying `Sorted`'s `less` closure
(`errs[i].Error() < errs[j].Error()`): Go compares strings byte-wise
lexicographically, which on UTF-8 agrees with code-point lexicographic
order, i.e. with the order on `String.data`. -/
def sortRel (f : Nat) (s : Heap) (a b : ErrVal) : Prop :=
  (render f s a).data ≤ (render f s b).data

instance (f : Nat) (s : Heap) : DecidableRel (sortRel f s) :=
  fun a b => inferInstanceAs (Decidable ((render f s a).data ≤ (render f s b).data))

instance (f : Nat) (s : Heap) : IsTotal ErrVal (sortRel f s) :=
  ⟨fun a b => le_total (render f s a).data (render f s b).data⟩

instance (f : Nat) (s : Heap) : IsTrans ErrVal (sortRel f s) :=
  ⟨fun _ _ _ h h' => le_trans h h'⟩

/-- `(*ErrorBag).Sorted`: `errs := eb.Errors()` shares the backing array with
`eb.errs`, and `sort.Slice` permutes it in place, so the bag's stored
sequence becomes the sorted sequence.  `sort.Slice` promises only an
in-place sorted permutation, not stability; the embedding must pick one
deterministic outcome and uses insertion sort, which is exactly the sort
Go's pdqsort performs on slices of at most 12 elements.  Beyond 12 elements
insertion sort is merely one outcome admitted by the `sort.Slice` contract
(Go may order equal-text errors differently there), so no theorem below
asserts anything about tie order for bags longer than 12. -/
def Sorted (f : Nat) (s : Heap) (ebId : Nat) : Heap × List ErrVal :=
  let sorted := (getBag s ebId).errs.insertionSort (sortRel f s)
  (setBag s ebId { getBag s ebId with errs := sorted }, sorted)

/-- `(*ErrorBag).Wrap`: nil input returns the receiver; without a wrapper it
is `eb.Add(err)`; a bag of the same identity is skipped; a bag of a different
identity has each of its stored errors wrapped individually via
`oeb.Visit(func(err) { eb.Wrap(err) })` (a fold of `Wrap` over a snapshot of
the sub-bag's errors, spending one unit of fuel); a plain error is
transformed by `WrapError` and `Add`ed. -/
def Wrap : Nat → Heap → Nat → Option ErrVal → Heap × Option Nat
  | _, s, ebId, none => (s, some ebId)
  | 0, s, ebId, some e =>
    match (getBag s ebId).wrapper with
    | none => Add 0 s (some ebId) (some e) []
    | some w =>
      match AsErrorBag e with
      | some _ => (s, some ebId)
      | none => Add 0 s (some ebId) (w e) []
  | Nat.succ g, s, ebId, some e =>
    match (getBag s ebId).wrapper with
    | none => Add (g + 1) s (some ebId) (some e) []
    | some w =>
      match AsErrorBag e with
      | some oid =>
        if oid = ebId then (s, some ebId)
        else
          (((getBag s oid).errs).foldl (fun h x => (Wrap g h ebId (some x)).1) s,
            some ebId)
      | none => Add (g + 1) s (some ebId) (w e) []

/-- The `Visit` loop inside `Wrap`, over a snapshot `L` of the sub-bag's
errors. -/
def wrapList (f : Nat) (s : Heap) (ebId : Nat) (L : List ErrVal) : Heap :=
  L.foldl (fun h x => (Wrap f h ebId (some x)).1) s

/-! ## Heap lemmas -/

theorem getBag_setBag_self (s : Heap) (i : Nat) (b : ErrorBag) :
    getBag (setBag s i b) i = b := by
  simp [getBag, setBag]

theorem getBag_setBag_ne (s : Heap) (i : Nat) (b : ErrorBag) {j : Nat}
    (h : j ≠ i) : getBag (setBag s i b) j = getBag s j := by
  simp [getBag, setBag, h]

theorem getBag_pushErr_self (s : Heap) (i : Nat) (e : ErrVal) :
    getBag (pushErr s i e) i =
      { getBag s i with errs := (getBag s i).errs ++ [e] } := by
  simp [pushErr, getBag_setBag_self]

theorem getBag_pushErr_ne (s : Heap) (i : Nat) (e : ErrVal) {j : Nat}
    (h : j ≠ i) : getBag (pushErr s i e) j = getBag s j :=
  getBag_setBag_ne _ _ _ h

/-! ## Frame lemmas: `add` and its derivatives mutate only the receiver's
`errs` field -/

theorem foldl_add_frame (f : Nat)
    (ih : ∀ s i e j, j ≠ i → getBag (add f s i e) j = getBag s j) :
    ∀ (L : List ErrVal) (s : Heap) (i j : Nat), j ≠ i →
      getBag (L.foldl (fun h x => add f h i x) s) j = getBag s j := by
  intro L
  induction L with
  | nil => intro s i j _; rfl
  | cons e es ihL =>
    intro s i j h
    rw [List.foldl_cons, ihL _ _ _ h, ih _ _ _ _ h]

theorem add_frame :
    ∀ (f : Nat) (s : Heap) (i : Nat) (e : ErrVal) (j : Nat), j ≠ i →
      getBag (add f s i e) j = getBag s j := by
  intro f
  induction f with
  | zero => intro s i e j _; rfl
  | succ g ih =>
    intro s i e j h
    cases e with
    | leaf m => rw [add_succ_leaf g s i m]; exact getBag_pushErr_ne _ _ _ h
    | bagRef d oid =>
      rw [add_succ_bag g s i d oid]
      by_cases hio : i = oid
      · simp [hio]
      · rw [if_neg hio]
        exact foldl_add_frame g ih _ _ _ _ h

theorem addList_frame (f : Nat) (L : List ErrVal) (s : Heap) (i : Nat)
    {j : Nat} (h : j ≠ i) : getBag (addList f s i L) j = getBag s j :=
  foldl_add_frame f (fun s i e j hj => add_frame f s i e j hj) L s i j h

theorem add_wrapper_defers :
    ∀ (f : Nat) (s : Heap) (i : Nat) (e : ErrVal) (j : Nat),
      (getBag (add f s i e) j).wrapper = (getBag s j).wrapper ∧
      (getBag (add f s i e) j).defers = (getBag s j).defers := by
  intro f
  induction f with
  | zero => intro s i e j; exact ⟨rfl, rfl⟩
  | succ g ih =>
    intro s i e j
    cases e with
    | leaf m =>
      rw [add_succ_leaf g s i m]
      by_cases hji : j = i
      · subst hji; rw [getBag_pushErr_self]; exact ⟨rfl, rfl⟩
      · rw [getBag_pushErr_ne _ _ _ hji]; exact ⟨rfl, rfl⟩
    | bagRef d oid =>
      rw [add_succ_bag g s i d oid]
      by_cases hio : i = oid
      · simp [hio]
      · rw [if_neg hio]
        show (getBag (addList g s i _) j).wrapper = _ ∧
          (getBag (addList g s i _) j).defers = _
        generalize (getBag s oid).errs = L
        induction L generalizing s with
        | nil => exact ⟨rfl, rfl⟩
        | cons x xs ihL =>
          have h1 := ih s i x j
          have h2 := ihL (add g s i x)
          unfold addList at h2 ⊢
          rw [List.foldl_cons]
          exact ⟨h2.1.trans h1.1, h2.2.trans h1.2⟩

theorem addOpt_wrapper_defers (f : Nat) (s : Heap) (i : Nat)
    (r : Option ErrVal) (j : Nat) :
    (getBag (addOpt f s i r) j).wrapper = (getBag s j).wrapper ∧
    (getBag (addOpt f s i r) j).defers = (getBag s j).defers := by
  cases r with
  | none => exact ⟨rfl, rfl⟩
  | some e => exact add_wrapper_defers f s i e j

theorem stash_wrapper_defers (f : Nat) :
    ∀ (items : List Item) (s : Heap) (i j : Nat),
      (getBag (stash f s i items) j).wrapper = (getBag s j).wrapper ∧
      (getBag (stash f s i items) j).defers = (getBag s j).defers := by
  intro items
  induction items with
  | nil => intro s i j; exact ⟨rfl, rfl⟩
  | cons it rest ih =>
    intro s i j
    cases it with
    | err e =>
      have h1 := add_wrapper_defers f s i e j
      have h2 := ih (add f s i e) i j
      exact ⟨h2.1.trans h1.1, h2.2.trans h1.2⟩
    | nilItem => exact ih s i j
    | fn r =>
      have h1 := addOpt_wrapper_defers f s i r j
      have h2 := ih (addOpt f s i r) i j
      exact ⟨h2.1.trans h1.1, h2.2.trans h1.2⟩
    | nilFn => exact ih s i j

/-! ## Growth lemmas: what `add` appends -/

theorem add_leaf_errs (f : Nat) (s : Heap) (i : Nat) {e : ErrVal}
    (h : AsErrorBag e = none) :
    (getBag (add (f + 1) s i e) i).errs = (getBag s i).errs ++ [e] := by
  rw [add_succ_of_leaf f s i h, getBag_pushErr_self]

theorem addList_leaves_errs (f : Nat) :
    ∀ (L : List ErrVal) (s : Heap) (i : Nat),
      (∀ x ∈ L, AsErrorBag x = none) →
      (getBag (addList (f + 1) s i L) i).errs = (getBag s i).errs ++ L := by
  intro L
  induction L with
  | nil => intro s i _; simp [addList]
  | cons x xs ih =>
    intro s i hL
    unfold addList
    rw [List.foldl_cons]
    have hx : AsErrorBag x = none := hL x (List.mem_cons_self x xs)
    have := ih (add (f + 1) s i x) i (fun y hy => hL y (List.mem_cons_of_mem x hy))
    unfold addList at this
    rw [this, add_leaf_errs f s i hx, List.append_assoc]
    rfl

theorem add_bag_errs (f : Nat) (s : Heap) (i : Nat) {d oid : Nat}
    (hne : i ≠ oid) (hl : ∀ x ∈ (getBag s oid).errs, AsErrorBag x = none) :
    (getBag (add (f + 2) s i (.bagRef d oid)) i).errs =
      (getBag s i).errs ++ (getBag s oid).errs := by
  rw [add_succ_bag (f + 1) s i d oid, if_neg hne]
  exact addList_leaves_errs f _ s i hl

/-! ## Self-insertion and reference-storage lemmas -/

theorem add_self (f : Nat) (s : Heap) (i d : Nat) :
    add f s i (.bagRef d i) = s := by
  cases f with
  | zero => rfl
  | succ g => rw [add_succ_bag g s i d i, if_pos rfl]

theorem foldl_add_no_new_ref (f : Nat)
    (ih : ∀ s i e j d k, ErrVal.bagRef d k ∈ (getBag (add f s i e) j).errs →
      ErrVal.bagRef d k ∈ (getBag s j).errs) :
    ∀ (L : List ErrVal) (s : Heap) (i j d k : Nat),
      ErrVal.bagRef d k ∈ (getBag (L.foldl (fun h x => add f h i x) s) j).errs →
      ErrVal.bagRef d k ∈ (getBag s j).errs := by
  intro L
  induction L with
  | nil => intro s i j d k h; exact h
  | cons e es ihL =>
    intro s i j d k h
    rw [List.foldl_cons] at h
    exact ih s i e j d k (ihL (add f s i e) i j d k h)

theorem add_no_new_ref :
    ∀ (f : Nat) (s : Heap) (i : Nat) (e : ErrVal) (j d k : Nat),
      ErrVal.bagRef d k ∈ (getBag (add f s i e) j).errs →
      ErrVal.bagRef d k ∈ (getBag s j).errs := by
  intro f
  induction f with
  | zero => intro s i e j d k h; exact h
  | succ g ih =>
    intro s i e j d k h
    cases e with
    | leaf m =>
      rw [add_succ_leaf g s i m] at h
      by_cases hji : j = i
      · subst hji
        rw [getBag_pushErr_self] at h
        rcases List.mem_append.1 h with h' | h'
        · exact h'
        · simp at h'
      · rwa [getBag_pushErr_ne _ _ _ hji] at h
    | bagRef d' oid =>
      rw [add_succ_bag g s i d' oid] at h
      by_cases hio : i = oid
      · rwa [if_pos hio] at h
      · rw [if_neg hio] at h
        exact foldl_add_no_new_ref g ih _ s i j d k h

/-! ## Claim theorems -/

/-- Claim C1: for every collector, adding or merging the collector into
itself (by identity, including when reached through a type that embeds it,
at any embedding depth `d`) is a no-op — the heap is unchanged, so the size
is unchanged — and no insertion path ever stores a collector reference, so a
collector never comes to contain itself as one of its own stored errors. -/
theorem self_insertion_noop (f : Nat) (s : Heap) (i d : Nat) :
    add f s i (.bagRef d i) = s
    ∧ Merge f s i (some i) = s
    ∧ Add f s (some i) (some (.bagRef d i)) [] = (s, ErrorOrNil s (some i))
    ∧ (∀ (e : ErrVal) (j d' k : Nat),
        ErrVal.bagRef d' k ∈ (getBag (add f s i e) j).errs →
        ErrVal.bagRef d' k ∈ (getBag s j).errs) := by
  refine ⟨add_self f s i d, by simp [Merge], ?_, ?_⟩
  · show (stash f (add f s i (ErrVal.bagRef d i)) i [],
      ErrorOrNil (stash f (add f s i (ErrVal.bagRef d i)) i []) (some i)) = _
    rw [show stash f (add f s i (ErrVal.bagRef d i)) i []
        = add f s i (ErrVal.bagRef d i) from rfl, add_self f s i d]
  · intro e j d' k h
    exact add_no_new_ref f s i e j d' k h

theorem self_insertion_noop_witness :
    ErrVal.bagRef 5 1 ∈
      (getBag (add 3 ⟨fun j => if j = 0 then ⟨[.bagRef 5 1], none, []⟩
        else emptyBag, 2⟩ 0 (.leaf "x")) 0).errs
    ∧ ErrVal.bagRef 5 1 ∈
      (getBag (⟨fun j => if j = 0 then ⟨[.bagRef 5 1], none, []⟩
        else emptyBag, 2⟩ : Heap) 0).errs := by
  refine ⟨by decide, ?_⟩
  exact (self_insertion_noop 3 ⟨fun j => if j = 0 then ⟨[.bagRef 5 1], none, []⟩
    else emptyBag, 2⟩ 0 0).2.2.2 (.leaf "x") 0 5 1 (by decide)

/-- Claim C3: `Return(extras...)` first folds the extras exactly as `Add`
folds them (through the shared `stash`), then appends the non-nil result of
every registered deferred callback, in registration order, regardless of
earlier failures, and returns `ErrorOrNil()`; in particular with
`Defer(f1); Defer(f2); Return()` where `f1` fails with `"f1"` and `f2`
succeeds, both contribute per their results and the collector ends holding
exactly the `f1` failure. -/
theorem return_runs_all_defers (f : Nat) (s : Heap) (i : Nat)
    (extras : List Item) :
    (getBag (Return f s i extras).1 i).errs
        = (getBag (stash f s i extras) i).errs
            ++ (getBag s i).defers.filterMap id
    ∧ (Return f s i extras).2 = ErrorOrNil (Return f s i extras).1 (some i)
    ∧ (getBag (Return 1 (Defer (Defer ⟨fun _ => emptyBag, 1⟩ 0
        (some (.leaf "f1"))) 0 none) 0 []).1 0).errs = [.leaf "f1"]
    ∧ (Return 1 (Defer (Defer ⟨fun _ => emptyBag, 1⟩ 0
        (some (.leaf "f1"))) 0 none) 0 []).2 = some 0 := by
  refine ⟨?_, rfl, by decide, by decide⟩
  show (getBag (setBag (stash f s i extras) i
    { getBag (stash f s i extras) i with
      errs := (getBag (stash f s i extras) i).errs
        ++ (getBag (stash f s i extras) i).defers.filterMap id }) i).errs = _
  rw [getBag_setBag_self]
  show (getBag (stash f s i extras) i).errs
    ++ (getBag (stash f s i extras) i).defers.filterMap id = _
  rw [(stash_wrapper_defers f extras s i i).2]

/-- Claim C6: `New(nil)` yields an absent value (`none`, not an empty
container) and touches neither the heap nor the extras, so a deferred-style
extra callback passed alongside a nil primary is never invoked (its
would-be error never enters any bag). -/
theorem new_nil_absent (f : Nat) (s : Heap) (others : List Item) :
    New f s none others = (s, none) := rfl

/-- Claim C7: merging the same non-empty distinct collector `B` into `A`
twice performs no deduplication: `A` gains `B`'s errors once per merge, its
size grows by `Size B` each time and `B`'s contribution has doubled after
the second call. -/
theorem merge_twice_duplicates (f : Nat) (s : Heap) (A B : Nat) (hAB : A ≠ B)
    (hB : ∀ x ∈ (getBag s B).errs, AsErrorBag x = none) :
    (getBag (Merge (f + 1) (Merge (f + 1) s A (some B)) A (some B)) A).errs
        = (getBag s A).errs ++ (getBag s B).errs ++ (getBag s B).errs
    ∧ Size (Merge (f + 1) (Merge (f + 1) s A (some B)) A (some B)) A
        = Size s A + 2 * Size s B
    ∧ Size (Merge (f + 1) s A (some B)) A = Size s A + Size s B := by
  have hm : Merge (f + 1) s A (some B) = addList (f + 1) s A (getBag s B).errs := by
    simp [Merge, hAB]
  have e1 : (getBag (addList (f + 1) s A (getBag s B).errs) A).errs
      = (getBag s A).errs ++ (getBag s B).errs :=
    addList_leaves_errs f _ s A hB
  have hBkeep : getBag (addList (f + 1) s A (getBag s B).errs) B = getBag s B :=
    addList_frame (f + 1) _ s A (Ne.symm hAB)
  have hm2 : Merge (f + 1) (addList (f + 1) s A (getBag s B).errs) A (some B)
      = addList (f + 1) (addList (f + 1) s A (getBag s B).errs) A
          (getBag s B).errs := by
    simp [Merge, hAB, hBkeep]
  have e2 : (getBag (addList (f + 1) (addList (f + 1) s A (getBag s B).errs) A
        (getBag s B).errs) A).errs
      = ((getBag s A).errs ++ (getBag s B).errs) ++ (getBag s B).errs := by
    rw [addList_leaves_errs f _ _ A hB, e1]
  refine ⟨?_, ?_, ?_⟩
  · rw [hm, hm2, e2]
  · rw [hm, hm2]
    simp [Size, e2]
    omega
  · rw [hm]
    simp [Size, e1]

theorem merge_twice_duplicates_witness :
    (getBag (Merge 1 (Merge 1 ⟨fun j => if j = 1 then ⟨[.leaf "x"], none, []⟩
        else emptyBag, 2⟩ 0 (some 1)) 0 (some 1)) 0).errs
      = [.leaf "x", .leaf "x"] := by
  have h := merge_twice_duplicates 0 ⟨fun j => if j = 1 then
    ⟨[.leaf "x"], none, []⟩ else emptyBag, 2⟩ 0 1 (by decide) (by decide)
  exact h.1.trans (by decide)

/-- A single `Return()` with no extras rewrites only the receiver's `errs`,
appending every non-nil deferred result. -/
theorem Return_nil_errs (f : Nat) (s : Heap) (i : Nat) :
    getBag (Return f s i []).1 i =
      { getBag s i with
        errs := (getBag s i).errs ++ (getBag s i).defers.filterMap id } := by
  show getBag (setBag s i _) i = _
  rw [getBag_setBag_self]
  rfl

/-- Claim C10: `Return` does not clear the pending deferred-callback list:
the registered callbacks survive every `Return`, so a second `Return()`
appends every non-nil deferred result to the stored errors a second time. -/
theorem return_keeps_defers (f : Nat) (s : Heap) (i : Nat) :
    (∀ extras, (getBag (Return f s i extras).1 i).defers = (getBag s i).defers)
    ∧ (getBag (Return f (Return f s i []).1 i []).1 i).errs
        = (getBag s i).errs ++ (getBag s i).defers.filterMap id
            ++ (getBag s i).defers.filterMap id := by
  constructor
  · intro extras
    show (getBag (setBag (stash f s i extras) i
      { getBag (stash f s i extras) i with
        errs := (getBag (stash f s i extras) i).errs
          ++ (getBag (stash f s i extras) i).defers.filterMap id }) i).defers = _
    rw [getBag_setBag_self]
    exact (stash_wrapper_defers f extras s i i).2
  · rw [Return_nil_errs, Return_nil_errs]

/-- Claim C8: the combined textual rendering is the empty string for zero
stored errors, the sole stored error's own rendered text verbatim for
exactly one, and the fixed summary `"encountered {N} errors"` (decimal `N`
equal to the stored count) for more than one. -/
theorem error_text_cases (f : Nat) (s : Heap) (i : Nat) :
    ((getBag s i).errs = [] → Error f s i = "")
    ∧ (∀ e, (getBag s i).errs = [e] → Error f s i = render f s e)
    ∧ (2 ≤ (getBag s i).errs.length →
        Error f s i = "encountered " ++ toString (getBag s i).errs.length
          ++ " errors") := by
  refine ⟨?_, ?_, ?_⟩
  · intro h
    simp [Error, h]
  · intro e h
    simp [Error, h]
  · intro h
    have h1 : ¬ (getBag s i).errs.length = 1 := by omega
    have h2 : 1 < (getBag s i).errs.length := by omega
    simp [Error, h1, h2]

theorem error_text_cases_witness :
    Error 1 ⟨fun _ => emptyBag, 1⟩ 0 = ""
    ∧ Error 1 ⟨fun _ => ⟨[.leaf "x"], none, []⟩, 1⟩ 0 = "x"
    ∧ Error 1 ⟨fun _ => ⟨[.leaf "a", .leaf "b", .leaf "c"], none, []⟩, 1⟩ 0
        = "encountered 3 errors" := by
  refine ⟨(error_text_cases 1 ⟨fun _ => emptyBag, 1⟩ 0).1 rfl, ?_, ?_⟩
  · exact (error_text_cases 1 ⟨fun _ => ⟨[.leaf "x"], none, []⟩, 1⟩ 0).2.1
      (.leaf "x") rfl
  · exact ((error_text_cases 1
      ⟨fun _ => ⟨[.leaf "a", .leaf "b", .leaf "c"], none, []⟩, 1⟩ 0).2.2
      (by decide)).trans (by decide)

/-- Claim C5, counterexample to the claim as stated: `Add` on an empty
collector of the collector itself (a non-nil `err`) returns an absent value,
so "absent only when `err` was nil" fails. -/
theorem add_absent_with_nonnil_err_cex :
    (Add 2 ⟨fun _ => emptyBag, 1⟩ (some 0) (some (.bagRef 0 0)) []).2 = none
    ∧ some (ErrVal.bagRef 0 0) ≠ (none : Option ErrVal) :=
  ⟨by decide, by decide⟩

/-- Claim C5, amended: `Add(err, extras...)` with non-nil `err` folds the
extras exactly as `New` does (through the shared `stash`, after inserting
`err`), returns the collector as its unified-error view whenever it ends
non-empty, and returns an absent value exactly when the collector holds no
errors after the call — which can also happen with a non-nil `err` (e.g.
inserting the collector itself, or an empty sub-collector); with nil `err`
it returns `ErrorOrNil` of the untouched receiver. -/
theorem add_result_view (f : Nat) (s : Heap) (i : Nat) (e : ErrVal)
    (extras : List Item) :
    (Add f s (some i) (some e) extras).1 = stash f (add f s i e) i extras
    ∧ ((Add f s (some i) (some e) extras).2 = none
        ↔ (getBag (Add f s (some i) (some e) extras).1 i).errs = [])
    ∧ ((getBag (Add f s (some i) (some e) extras).1 i).errs ≠ [] →
        (Add f s (some i) (some e) extras).2 = some i)
    ∧ Add f s (some i) none extras = (s, ErrorOrNil s (some i)) := by
  have hAdd : (Add f s (some i) (some e) extras).1
      = stash f (add f s i e) i extras := rfl
  refine ⟨rfl, ?_, ?_, rfl⟩
  · rw [hAdd]
    show ErrorOrNil (stash f (add f s i e) i extras) (some i) = none ↔ _
    by_cases hc : (getBag (stash f (add f s i e) i extras) i).errs = []
    · simp [ErrorOrNil, hc]
    · simp [ErrorOrNil, hc]
  · rw [hAdd]
    intro hc
    show ErrorOrNil (stash f (add f s i e) i extras) (some i) = some i
    simp only [ErrorOrNil]
    rw [if_neg (by simpa [List.isEmpty_iff] using hc)]

theorem add_result_view_witness :
    (getBag (Add 1 ⟨fun _ => emptyBag, 1⟩ (some 0) (some (.leaf "x")) []).1
        0).errs ≠ []
    ∧ (Add 1 ⟨fun _ => emptyBag, 1⟩ (some 0) (some (.leaf "x")) []).2
        = some 0 := by
  refine ⟨by decide, ?_⟩
  exact (add_result_view 1 ⟨fun _ => emptyBag, 1⟩ 0 (.leaf "x") []).2.2.1
    (by decide)

/-- The one-level flattening view of an inserted value: a plain error counts
as itself; a collector reference contributes its stored errors. -/
def flatten (s : Heap) (e : ErrVal) : List ErrVal :=
  match AsErrorBag e with
  | none => [e]
  | some oid => (getBag s oid).errs

def flattenAll (s : Heap) : List ErrVal → List ErrVal
  | [] => []
  | e :: es => flatten s e ++ flattenAll s es

theorem flattenAll_congr {s s' : Heap} {i : Nat}
    (hframe : ∀ j, j ≠ i → getBag s' j = getBag s j) :
    ∀ es : List ErrVal, (∀ e ∈ es, ∀ oid, AsErrorBag e = some oid → oid ≠ i) →
      flattenAll s' es = flattenAll s es := by
  intro es
  induction es with
  | nil => intro _; rfl
  | cons e rest ih =>
    intro h
    have hrest := ih fun x hx => h x (List.mem_cons_of_mem e hx)
    show flatten s' e ++ _ = flatten s e ++ _
    rw [hrest]
    cases he : AsErrorBag e with
    | none => simp [flatten, he]
    | some oid =>
      have hne := h e (List.mem_cons_self e rest) oid he
      simp [flatten, he, hframe oid hne]

theorem flattenAll_length (s : Heap) :
    ∀ es : List ErrVal,
      (flattenAll s es).length = (es.map fun e => (flatten s e).length).sum := by
  intro es
  induction es with
  | nil => rfl
  | cons e rest ih => simp [flattenAll, ih]

/-- Claim C2: over any sequence of `Add` calls with non-nil arguments, a
value that is itself a collector (recognised structurally, at any embedding
depth) is never stored as an opaque leaf: its stored errors are inserted
recursively in their original order and the collector value itself is
discarded, so the stored sequence grows by the one-level flattening of each
inserted value and `Size()` equals the old size plus one per plain error
plus the flattened count of each inserted sub-collector. -/
theorem add_flattens_subcollectors (f : Nat) (s : Heap) (i : Nat)
    (es : List ErrVal)
    (hok : ∀ e ∈ es, ∀ oid, AsErrorBag e = some oid →
      oid ≠ i ∧ ∀ x ∈ (getBag s oid).errs, AsErrorBag x = none) :
    (getBag (es.foldl (fun h e => (Add (f + 2) h (some i) (some e) []).1) s)
        i).errs
      = (getBag s i).errs ++ flattenAll s es
    ∧ Size (es.foldl (fun h e => (Add (f + 2) h (some i) (some e) []).1) s) i
      = Size s i + (es.map fun e => (flatten s e).length).sum := by
  have main : ∀ (es : List ErrVal) (s : Heap),
      (∀ e ∈ es, ∀ oid, AsErrorBag e = some oid →
        oid ≠ i ∧ ∀ x ∈ (getBag s oid).errs, AsErrorBag x = none) →
      (getBag (es.foldl (fun h e => (Add (f + 2) h (some i) (some e) []).1) s)
          i).errs
        = (getBag s i).errs ++ flattenAll s es := by
    intro es
    induction es with
    | nil => intro s _; simp [flattenAll]
    | cons e rest ih =>
      intro s hok
      rw [List.foldl_cons,
        show (Add (f + 2) s (some i) (some e) []).1 = add (f + 2) s i e from rfl]
      have hframe : ∀ j, j ≠ i → getBag (add (f + 2) s i e) j = getBag s j :=
        fun j hj => add_frame (f + 2) s i e j hj
      have hok' : ∀ x ∈ rest, ∀ oid, AsErrorBag x = some oid →
          oid ≠ i ∧ ∀ y ∈ (getBag (add (f + 2) s i e) oid).errs,
            AsErrorBag y = none := by
        intro x hx oid ho
        obtain ⟨h1, h2⟩ := hok x (List.mem_cons_of_mem e hx) oid ho
        exact ⟨h1, by rw [hframe oid h1]; exact h2⟩
      have hflat : flattenAll (add (f + 2) s i e) rest = flattenAll s rest :=
        flattenAll_congr hframe rest
          (fun x hx oid ho => (hok x (List.mem_cons_of_mem e hx) oid ho).1)
      rw [ih (add (f + 2) s i e) hok', hflat]
      cases he : AsErrorBag e with
      | none =>
        rw [add_leaf_errs (f + 1) s i he]
        simp [flattenAll, flatten, he]
      | some oid =>
        obtain ⟨hne, hleaf⟩ := hok e (List.mem_cons_self e rest) oid he
        cases e with
        | leaf m => simp [AsErrorBag] at he
        | bagRef d oid' =>
          have : oid' = oid := by simpa [AsErrorBag] using he
          subst this
          rw [add_bag_errs f s i (Ne.symm hne) hleaf]
          simp [flattenAll, flatten, AsErrorBag]
  refine ⟨main es s hok, ?_⟩
  rw [Size, main es s hok]
  simp [Size, flattenAll_length]

theorem add_flattens_subcollectors_witness :
    (getBag (([ErrVal.leaf "x", ErrVal.bagRef 0 1]).foldl
        (fun h e => (Add 2 h (some 0) (some e) []).1)
        ⟨fun j => if j = 1 then ⟨[.leaf "a", .leaf "b"], none, []⟩
          else emptyBag, 2⟩) 0).errs
      = [.leaf "x", .leaf "a", .leaf "b"]
    ∧ Size (([ErrVal.leaf "x", ErrVal.bagRef 0 1]).foldl
        (fun h e => (Add 2 h (some 0) (some e) []).1)
        ⟨fun j => if j = 1 then ⟨[.leaf "a", .leaf "b"], none, []⟩
          else emptyBag, 2⟩) 0 = 3 := by
  have hok : ∀ e ∈ ([ErrVal.leaf "x", ErrVal.bagRef 0 1] : List ErrVal),
      ∀ oid, AsErrorBag e = some oid → oid ≠ 0 ∧
        ∀ x ∈ (getBag (⟨fun j => if j = 1 then
            ⟨[.leaf "a", .leaf "b"], none, []⟩ else emptyBag, 2⟩ : Heap)
          oid).errs, AsErrorBag x = none := by
    intro e he oid ho
    rcases List.mem_cons.1 he with rfl | he2
    · simp [AsErrorBag] at ho
    · rcases List.mem_cons.1 he2 with rfl | he3
      · have : oid = 1 := by simpa [AsErrorBag] using ho.symm
        subst this
        exact ⟨by decide, by decide⟩
      · simp at he3
  have h := add_flattens_subcollectors 0 ⟨fun j => if j = 1 then
    ⟨[.leaf "a", .leaf "b"], none, []⟩ else emptyBag, 2⟩ 0
    [ErrVal.leaf "x", ErrVal.bagRef 0 1] hok
  exact ⟨h.1.trans (by decide), h.2.trans (by decide)⟩

/-! ## Stability of insertion sort (filter form) -/

theorem filter_orderedInsert {α : Type} (r : α → α → Prop) [DecidableRel r]
    (p : α → Bool) (x : α) (hx : p x = true → ∀ b, ¬ r x b → p b = false) :
    ∀ l, (List.orderedInsert r x l).filter p
      = if p x then x :: l.filter p else l.filter p := by
  intro l
  induction l with
  | nil =>
    simp only [List.orderedInsert, List.filter]
    cases p x <;> simp
  | cons b l ih =>
    by_cases hrb : r x b
    · rw [List.orderedInsert, if_pos hrb, List.filter_cons]
    · rw [List.orderedInsert, if_neg hrb, List.filter_cons, ih]
      by_cases hpx : p x = true
      · have hpb : p b = false := hx hpx b hrb
        simp [hpx, hpb, List.filter_cons]
      · have hpx' : p x = false := by revert hpx; cases p x <;> simp
        simp [hpx', List.filter_cons]

theorem filter_insertionSort {α : Type} (r : α → α → Prop) [DecidableRel r]
    (p : α → Bool) (h : ∀ a, p a = true → ∀ b, ¬ r a b → p b = false) :
    ∀ l, (List.insertionSort r l).filter p = l.filter p := by
  intro l
  induction l with
  | nil => rfl
  | cons a l ih =>
    rw [List.insertionSort, filter_orderedInsert r p a (h a), ih,
      List.filter_cons]

/-- Claim C4, counterexample to the claim as stated: `Sorted()` returns the
correctly ordered sequence, but `Errors()` hands `sort.Slice` the collector's
own backing slice, so after the call the stored sequence is the sorted one,
not the insertion order. -/
theorem sorted_mutates_storage_cex :
    (Sorted 1 ⟨fun _ => ⟨[.leaf "b", .leaf "a"], none, []⟩, 1⟩ 0).2
        = [.leaf "a", .leaf "b"]
    ∧ (getBag (Sorted 1 ⟨fun _ => ⟨[.leaf "b", .leaf "a"], none, []⟩, 1⟩
          0).1 0).errs
        ≠ (getBag (⟨fun _ => ⟨[.leaf "b", .leaf "a"], none, []⟩, 1⟩ : Heap)
          0).errs :=
  ⟨by decide, by decide⟩

/-- Claim C4, amended: `Sorted()` returns the stored sequence ordered by
lexical comparison of each error's rendered text, and the sort happens in
place on the stored slice (`Errors()` returns the backing slice, not a
copy), so after the call the collector's stored sequence is the sorted
sequence, not the insertion order.  Ties keep their relative insertion
order only for bags of at most 12 stored errors — the regime in which Go's
pdqsort provably runs plain insertion sort; for longer slices the
`sort.Slice` API guarantees no tie order, so nothing is asserted there. -/
theorem sorted_sorts_in_place (f : Nat) (s : Heap) (i : Nat) :
    List.Sorted (sortRel f s) (Sorted f s i).2
    ∧ (Sorted f s i).2.Perm (getBag s i).errs
    ∧ ((getBag s i).errs.length ≤ 12 →
        ∀ k : List Char,
          (Sorted f s i).2.filter (fun e => decide ((render f s e).data = k))
            = ((getBag s i).errs).filter
                (fun e => decide ((render f s e).data = k)))
    ∧ (getBag (Sorted f s i).1 i).errs = (Sorted f s i).2 := by
  refine ⟨List.sorted_insertionSort _ _, List.perm_insertionSort _ _, ?_, ?_⟩
  · intro _ k
    apply filter_insertionSort
    intro a hpa b hnr
    have ha : (render f s a).data = k := of_decide_eq_true hpa
    have hlt : (render f s b).data < (render f s a).data :=
      lt_of_not_le hnr
    exact decide_eq_false fun hb => absurd (hb ▸ ha ▸ hlt) (lt_irrefl _)
  · show (getBag (setBag s i _) i).errs = _
    rw [getBag_setBag_self]
    rfl

theorem sorted_sorts_in_place_witness :
    (getBag (⟨fun j => if j = 1 then ⟨[.leaf "a"], none, []⟩
        else ⟨[.leaf "b", .leaf "a", .bagRef 0 1], none, []⟩, 2⟩ : Heap)
      0).errs.length ≤ 12
    ∧ (Sorted 1 ⟨fun j => if j = 1 then ⟨[.leaf "a"], none, []⟩
        else ⟨[.leaf "b", .leaf "a", .bagRef 0 1], none, []⟩, 2⟩ 0).2.filter
        (fun e => decide ((render 1 ⟨fun j => if j = 1 then
            ⟨[.leaf "a"], none, []⟩
          else ⟨[.leaf "b", .leaf "a", .bagRef 0 1], none, []⟩, 2⟩ e).data
          = "a".data))
      = [.leaf "a", .bagRef 0 1] := by
  refine ⟨by decide, ?_⟩
  have h := (sorted_sorts_in_place 1 ⟨fun j => if j = 1 then
    ⟨[.leaf "a"], none, []⟩
    else ⟨[.leaf "b", .leaf "a", .bagRef 0 1], none, []⟩, 2⟩ 0).2.2.1
    (by decide) ("a".data)
  exact h.trans (by decide)

/-! ## Wrap lemmas -/

theorem Wrap_leaf_eq (f : Nat) (s : Heap) (ebId : Nat) (m : String) :
    Wrap f s ebId (some (.leaf m)) =
      match (getBag s ebId).wrapper with
      | none => Add f s (some ebId) (some (.leaf m)) []
      | some w => Add f s (some ebId) (w (.leaf m)) [] := by
  cases f <;> rfl

theorem Wrap_bag_eq (g : Nat) (s : Heap) (ebId d oid : Nat) :
    Wrap (g + 1) s ebId (some (.bagRef d oid)) =
      match (getBag s ebId).wrapper with
      | none => Add (g + 1) s (some ebId) (some (.bagRef d oid)) []
      | some _ =>
        if oid = ebId then (s, some ebId)
        else (wrapList g s ebId ((getBag s oid).errs), some ebId) := rfl

theorem Wrap_some_leaf {s : Heap} {ebId : Nat} {w : ErrVal → Option ErrVal}
    (f : Nat) {e : ErrVal} (hw : (getBag s ebId).wrapper = some w)
    (he : AsErrorBag e = none) :
    Wrap f s ebId (some e) = Add f s (some ebId) (w e) [] := by
  cases e with
  | leaf m => rw [Wrap_leaf_eq, hw]
  | bagRef d id => simp [AsErrorBag] at he

theorem Wrap_some_bag_ne {s : Heap} {ebId : Nat} {w : ErrVal → Option ErrVal}
    (g : Nat) {d oid : Nat} (hw : (getBag s ebId).wrapper = some w)
    (hne : oid ≠ ebId) :
    Wrap (g + 1) s ebId (some (.bagRef d oid))
      = (wrapList g s ebId ((getBag s oid).errs), some ebId) := by
  rw [Wrap_bag_eq, hw]
  show (if oid = ebId then (s, some ebId)
    else (wrapList g s ebId ((getBag s oid).errs), some ebId)) = _
  rw [if_neg hne]

theorem Wrap_some_bag_self {s : Heap} {ebId : Nat} {w : ErrVal → Option ErrVal}
    (g : Nat) (d : Nat) (hw : (getBag s ebId).wrapper = some w) :
    Wrap (g + 1) s ebId (some (.bagRef d ebId)) = (s, some ebId) := by
  rw [Wrap_bag_eq, hw]
  show (if ebId = ebId then (s, some ebId)
    else (wrapList g s ebId ((getBag s ebId).errs), some ebId)) = _
  rw [if_pos rfl]

theorem wrapList_leaves (w : ErrVal → Option ErrVal) :
    ∀ (L : List ErrVal) (g : Nat) (s : Heap) (i : Nat),
      (getBag s i).wrapper = some w →
      (∀ x ∈ L, AsErrorBag x = none ∧
        ∃ x', w x = some x' ∧ AsErrorBag x' = none) →
      (getBag (wrapList (g + 1) s i L) i).errs
          = (getBag s i).errs ++ L.filterMap w
      ∧ (∀ j, j ≠ i → getBag (wrapList (g + 1) s i L) j = getBag s j)
      ∧ (getBag (wrapList (g + 1) s i L) i).wrapper = some w := by
  intro L
  induction L with
  | nil => intro g s i hw _; exact ⟨by simp [wrapList], fun j _ => rfl, hw⟩
  | cons x xs ih =>
    intro g s i hw hx
    obtain ⟨hleaf, x', hwx, hx'⟩ := hx x (List.mem_cons_self x xs)
    have hstep : (Wrap (g + 1) s i (some x)).1 = pushErr s i x' := by
      rw [Wrap_some_leaf (g + 1) hw hleaf, hwx]
      show stash (g + 1) (add (g + 1) s i x') i [] = _
      rw [show stash (g + 1) (add (g + 1) s i x') i []
          = add (g + 1) s i x' from rfl, add_succ_of_leaf g s i hx']
    have hunf : wrapList (g + 1) s i (x :: xs)
        = wrapList (g + 1) (Wrap (g + 1) s i (some x)).1 i xs := rfl
    have hw' : (getBag (pushErr s i x') i).wrapper = some w := by
      rw [getBag_pushErr_self]; exact hw
    have hxs : ∀ y ∈ xs, AsErrorBag y = none ∧
        ∃ y', w y = some y' ∧ AsErrorBag y' = none :=
      fun y hy => hx y (List.mem_cons_of_mem x hy)
    obtain ⟨ih1, ih2, ih3⟩ := ih g (pushErr s i x') i hw' hxs
    rw [hunf, hstep]
    refine ⟨?_, ?_, ih3⟩
    · rw [ih1, getBag_pushErr_self]
      show ((getBag s i).errs ++ [x']) ++ xs.filterMap w = _
      rw [List.append_assoc, List.filterMap_cons, hwx]
      rfl
    · intro j hj
      rw [ih2 j hj, getBag_pushErr_ne _ _ _ hj]

/-- Claim C9: with a wrapper installed, `Wrap` of a value that is
structurally a collector of different identity wraps each of that
collector's stored errors individually, in their original order (each is
transformed by `WrapError` and inserted separately; the sub-collector is
never inserted as one opaque value), and returns the receiver; `Wrap` of a
collector of the same identity is a complete no-op that returns the
receiver. -/
theorem wrap_subcollector_individually (f : Nat) (s : Heap) (i oid d : Nat)
    (w : ErrVal → Option ErrVal)
    (hw : (getBag s i).wrapper = some w) (hne : oid ≠ i)
    (hsub : ∀ x ∈ (getBag s oid).errs, AsErrorBag x = none ∧
      ∃ x', w x = some x' ∧ AsErrorBag x' = none) :
    (Wrap (f + 2) s i (some (.bagRef d oid))).2 = some i
    ∧ (getBag (Wrap (f + 2) s i (some (.bagRef d oid))).1 i).errs
        = (getBag s i).errs ++ (getBag s oid).errs.filterMap w
    ∧ Wrap (f + 2) s i (some (.bagRef d i)) = (s, some i) := by
  rw [Wrap_some_bag_ne (f + 1) hw hne]
  obtain ⟨h1, _, _⟩ := wrapList_leaves w ((getBag s oid).errs) f s i hw hsub
  exact ⟨rfl, h1, Wrap_some_bag_self (f + 1) d hw⟩

theorem wrap_subcollector_individually_witness :
    (Wrap 2 ⟨fun j => if j = 1 then ⟨[.leaf "a", .leaf "b"], none, []⟩
        else ⟨[], some (fun _ => some (.leaf "w")), []⟩, 2⟩ 0
      (some (.bagRef 0 1))).2 = some 0
    ∧ (getBag (Wrap 2 ⟨fun j => if j = 1 then ⟨[.leaf "a", .leaf "b"], none, []⟩
        else ⟨[], some (fun _ => some (.leaf "w")), []⟩, 2⟩ 0
      (some (.bagRef 0 1))).1 0).errs = [.leaf "w", .leaf "w"] := by
  have h := wrap_subcollector_individually 0
    ⟨fun j => if j = 1 then ⟨[.leaf "a", .leaf "b"], none, []⟩
      else ⟨[], some (fun _ => some (.leaf "w")), []⟩, 2⟩ 0 1 0
    (fun _ => some (.leaf "w")) rfl (by decide) ?_
  · exact ⟨h.1, h.2.1.trans (by decide)⟩
  · intro x hx
    refine ⟨?_, ⟨.leaf "w", rfl, rfl⟩⟩
    rcases List.mem_cons.1 hx with rfl | hx2
    · rfl
    · rcases List.mem_cons.1 hx2 with rfl | hx3
      · rfl
      · simp at hx3

end Errbag
